import Mathlib

/-!
Verification of the speak2reel subtitle and scene-splitting pipeline, embedding
src/podcast_to_reels/scene_splitter.py and src/podcast_to_reels/video_composer.py.
Python floats are modelled as exact rationals; the single floating-point-sensitive
question is settled by evaluating the embedding at the exact binary64 value of the
input, at which point every operation the code performs is exact in binary64.
Collaborators (the OpenAI client, the file system) are explicit functional inputs.
-/

/-- Python whitespace test over the ASCII range, as used by str.strip and str.split. -/
def pyIsSpace (c : Char) : Bool :=
  c = ' ' || c = '\t' || c = '\n' || c = '\r' || c = '\x0b' || c = '\x0c'

/-- Python str.strip: remove leading and trailing whitespace. -/
def pyStrip (s : String) : String :=
  String.mk ((((s.data.dropWhile pyIsSpace).reverse).dropWhile pyIsSpace).reverse)

/-- Helper for pyWords: split a character list on whitespace runs, carrying the current word reversed. -/
def wordsAux : List Char → List Char → List (List Char)
  | [], acc => if acc = [] then [] else [acc.reverse]
  | c :: rest, acc =>
    if pyIsSpace c then
      if acc = [] then wordsAux rest [] else acc.reverse :: wordsAux rest []
    else wordsAux rest (c :: acc)

/-- Python str.split with no separator: the whitespace-delimited words, empties discarded. -/
def pyWords (s : String) : List String :=
  (wordsAux s.data []).map String.mk

/-- Python " ".join over a list of strings. -/
def joinSpace : List String → String
  | [] => ""
  | [s] => s
  | s :: rest => s ++ " " ++ joinSpace rest

/-- Python character-level slicing from index n: s[n:]. -/
def pyDrop (s : String) (n : ℕ) : String := String.mk (s.data.drop n)

/-- Boolean character-list prefix test, kernel-evaluable. -/
def listIsPref : List Char → List Char → Bool
  | [], _ => true
  | _ :: _, [] => false
  | a :: as, b :: bs => a = b && listIsPref as bs

/-- Python str.startswith restricted to character lists. -/
def pyStartsWith (s pre : String) : Bool := listIsPref pre.data s.data

/-- Python str.lower restricted to ASCII, enough for the ASCII label checked by the code. -/
def pyLowerChar (c : Char) : Char :=
  if 'A' ≤ c ∧ c ≤ 'Z' then Char.ofNat (c.toNat + 32) else c

/-- ASCII lowercase of a string. -/
def pyLower (s : String) : String := String.mk (s.data.map pyLowerChar)

/-- A transcript segment: the dictionary keys text, start and end, each possibly absent.
The end key is named stop because end is reserved in Lean. -/
structure Segment where
  text : Option String
  start : Option ℚ
  stop : Option ℚ
deriving DecidableEq, Repr

/-- Convenience constructor for a fully-present segment. -/
def mkSeg (t : String) (a b : ℚ) : Segment := ⟨some t, some a, some b⟩

/-- A transcript dictionary: the language and segments keys, each possibly absent.
An absent transcript value is modelled as none at use sites. -/
structure Transcript where
  language : Option String
  segments : Option (List Segment)
deriving DecidableEq, Repr

/-- A scene produced by split_transcript_into_scenes, with the source field names. -/
structure Scene where
  chunk_text : String
  start_time : ℚ
  end_time : ℚ
  image_prompt : Option String
deriving DecidableEq, Repr

/-- Cleanup applied by generate_image_prompt_with_openai to the collaborator text:
strip, then drop a leading case-insensitive prompt label of seven characters and strip again. -/
def cleanPromptText (raw : String) : String :=
  let s := pyStrip raw
  if pyStartsWith (pyLower s) "prompt:" then pyStrip (pyDrop s 7) else s

/-- Embedding of generate_image_prompt_with_openai: the environment key (none when unset,
empty string falsy as in Python) and the collaborator outcome are explicit inputs; none for
the collaborator models any API failure (auth, rate limit, network, malformed response),
which the code catches and turns into a None return rather than an exception. -/
def generate_image_prompt_with_openai (apiKey : Option String) (collab : Option String) :
    Option String :=
  if apiKey.getD "" = "" then none
  else collab.map cleanPromptText

/-- Loop state of split_transcript_into_scenes: emitted scenes, the accumulator of stripped
segment texts (current_chunk_text), its word count, the chunk start and end times, and a
ghost list of the texts passed to prompt generation, in call order. -/
structure SplitState where
  scenes : List Scene
  curText : List String
  curWc : ℕ
  cst : ℚ
  cet : ℚ
  promptArgs : List String
deriving DecidableEq, Repr

/-- Initial loop state: no scenes, empty accumulator, chunk times minus one. -/
def initState : SplitState := ⟨[], [], 0, -1, -1, []⟩

/-- One iteration of the segment loop of split_transcript_into_scenes. The comparison of the
segment word count against words_per_chunk times 1.5 is written over integers: wc is at least
1.5 times wpc iff 2 wc is at least 3 wpc, exactly as the Python float comparison evaluates. -/
def step (gen : String → String → Option String) (lang : String) (wpc : ℕ)
    (s : SplitState) (seg : Segment) : SplitState :=
  let txt := pyStrip (seg.text.getD "")
  if txt = "" then s
  else
    let wc := (pyWords txt).length
    if s.curWc = 0 ∧ 3 * wpc ≤ 2 * wc then
      { s with
        scenes := s.scenes ++ [⟨txt, seg.start.getD 0, seg.stop.getD 0, gen txt lang⟩],
        promptArgs := s.promptArgs ++ [txt] }
    else if 0 < s.curWc ∧ wpc + 5 < s.curWc + wc then
      { scenes := s.scenes ++
          [⟨joinSpace s.curText, s.cst, s.cet, gen (joinSpace s.curText) lang⟩],
        curText := [txt],
        curWc := wc,
        cst := seg.start.getD 0,
        cet := seg.stop.getD 0,
        promptArgs := s.promptArgs ++ [joinSpace s.curText] }
    else
      { s with
        curText := s.curText ++ [txt],
        curWc := s.curWc + wc,
        cst := if s.cst < 0 then seg.start.getD 0 else s.cst,
        cet := seg.stop.getD 0 }

/-- Final flush at loop end: a non-empty accumulator becomes the last scene. -/
def finishScenes (gen : String → String → Option String) (lang : String)
    (s : SplitState) : List Scene :=
  if s.curText = [] then s.scenes
  else s.scenes ++ [⟨joinSpace s.curText, s.cst, s.cet, gen (joinSpace s.curText) lang⟩]

/-- Ghost counterpart of finishScenes for the prompt-generation call list. -/
def finishPromptArgs (s : SplitState) : List String :=
  if s.curText = [] then s.promptArgs else s.promptArgs ++ [joinSpace s.curText]

/-- Embedding of split_transcript_into_scenes. The collaborator gen maps a chunk text and a
language to the optional prompt; none for the transcript models an absent argument, none for
segments a missing key, and the empty segment list the falsy check, all returning the empty list. -/
def split_transcript_into_scenes (gen : String → String → Option String)
    (t : Option Transcript) (wpc : ℕ) : List Scene :=
  match t with
  | none => []
  | some td =>
    match td.segments with
    | none => []
    | some [] => []
    | some segs =>
      finishScenes gen (td.language.getD "en")
        (segs.foldl (step gen (td.language.getD "en") wpc) initState)

/-- Ghost observation of split_transcript_into_scenes: the chunk texts passed to
generate_image_prompt_with_openai, in call order. -/
def splitPromptArgs (gen : String → String → Option String)
    (t : Option Transcript) (wpc : ℕ) : List String :=
  match t with
  | none => []
  | some td =>
    match td.segments with
    | none => []
    | some [] => []
    | some segs =>
      finishPromptArgs (segs.foldl (step gen (td.language.getD "en") wpc) initState)

/-- One SRT cue: the numeric index line, the start and end times and the stripped text. -/
structure SrtCue where
  index : ℕ
  start : ℚ
  stop : ℚ
  text : String
deriving DecidableEq, Repr

/-- Cue-building loop of generate_srt_from_transcript: enumerate(segments) starting at i,
skipping segments whose stripped text is empty, the emitted cue carrying index i plus one. -/
def cuesFrom : ℕ → List Segment → List SrtCue
  | _, [] => []
  | i, seg :: rest =>
    if pyStrip (seg.text.getD "") = "" then cuesFrom (i + 1) rest
    else ⟨i + 1, seg.start.getD 0, seg.stop.getD 0, pyStrip (seg.text.getD "")⟩ ::
      cuesFrom (i + 1) rest

/-- Embedding of generate_srt_from_transcript: none models the False return on invalid input
(absent transcript or missing segments key); the file write is abstracted to the cue list
written, so an empty segment list yields some of the empty list. -/
def generate_srt_from_transcript (t : Option Transcript) : Option (List SrtCue) :=
  match t with
  | none => none
  | some td =>
    match td.segments with
    | none => none
    | some segs => some (cuesFrom 0 segs)

/-- Python int() on a rational: truncation toward zero, computed on the reduced
numerator and denominator so the kernel can evaluate it. -/
def pyInt (q : ℚ) : ℤ := q.num.tdiv q.den

/-- Exact rational subtraction, written through mkRat so the kernel can evaluate it
(the library subtraction on ℚ is irreducible); it agrees with the library subtraction. -/
def ratSub (a b : ℚ) : ℚ := mkRat (a.num * b.den - b.num * a.den) (a.den * b.den)

/-- Exact rational multiplication, written through mkRat so the kernel can evaluate it;
it agrees with the library multiplication. -/
def ratMul (a b : ℚ) : ℚ := mkRat (a.num * b.num) (a.den * b.den)

/-- Decimal digits of a natural number, with explicit fuel so the kernel can evaluate it. -/
def natDigitsAux : ℕ → ℕ → List Char
  | 0, _ => []
  | fuel + 1, n =>
    if n < 10 then [Nat.digitChar n] else natDigitsAux fuel (n / 10) ++ [Nat.digitChar (n % 10)]

/-- Decimal representation of a natural number. -/
def natRepr (n : ℕ) : String := String.mk (natDigitsAux (n + 1) n)

/-- Zero padding to a given width, as the Python format spec 0Nd on a non-negative value. -/
def zeroPad (w : ℕ) (n : ℤ) : String :=
  let s := natRepr n.toNat
  String.mk (List.replicate (w - s.length) '0') ++ s

/-- Embedding of format_srt_timestamp over exact rationals: millis by truncation of the
fractional part times 1000, then Python floor division and modulus on the integer seconds. -/
def format_srt_timestamp (seconds : ℚ) : String :=
  let millis := pyInt (ratMul (ratSub seconds (mkRat (pyInt seconds) 1)) (mkRat 1000 1))
  let secs := pyInt seconds
  let minutes := Int.fdiv secs 60
  let secs2 := Int.fmod secs 60
  let hours := Int.fdiv minutes 60
  let minutes2 := Int.fmod minutes 60
  zeroPad 2 hours ++ ":" ++ zeroPad 2 minutes2 ++ ":" ++ zeroPad 2 secs2 ++ "," ++ zeroPad 3 millis

/-- Image-clip filtering phase of compose_video: scene i survives when its image file
scene_i.png exists (imageExists abstracts os.path.exists on that path) and its duration
end_time minus start_time is positive; all other scenes are skipped with a warning.
Audio loading and the encoder are outside the model. -/
def composeImagePlacements (imageExists : ℕ → Bool) (scenes_data : List Scene) :
    List (ℕ × Scene) :=
  scenes_data.enum.filter fun p => imageExists p.1 && decide (0 < p.2.end_time - p.2.start_time)

/-- Outcome of the filtering phase: compose_video aborts with False exactly when no image
clip could be created, and proceeds otherwise. -/
def composeHasClips (imageExists : ℕ → Bool) (scenes_data : List Scene) : Bool :=
  !(composeImagePlacements imageExists scenes_data).isEmpty

/-- Stripped texts of the non-whitespace segments, in input order. -/
def segTexts (segs : List Segment) : List String :=
  segs.filterMap fun seg =>
    let txt := pyStrip (seg.text.getD "")
    if txt = "" then none else some txt

/-- Stripped non-empty segment texts of an optional transcript, following the words of the
specification for the coverage claim. -/
def transcriptTexts : Option Transcript → List String
  | none => []
  | some td => segTexts (td.segments.getD [])

/-- Whitespace-split word count of the stripped text of a segment. -/
def segWc (seg : Segment) : ℕ := (pyWords (pyStrip (seg.text.getD ""))).length

/-- Start time of the first segment of a chunk accumulator. -/
def firstStart : List Segment → ℚ
  | [] => 0
  | seg :: _ => seg.start.getD 0

/-- End time of the last segment of a chunk accumulator. -/
def lastEnd (L : List Segment) : ℚ := (L.getLast?.map fun seg => seg.stop.getD 0).getD 0

/-- The chunk-text, start and end data of a scene, forgetting the prompt. -/
def sceneShape (sc : Scene) : String × ℚ × ℚ := (sc.chunk_text, sc.start_time, sc.end_time)

theorem ratSub_eq (a b : ℚ) : ratSub a b = a - b := by
  rw [ratSub, Rat.mkRat_eq_div]
  have h1 : ((a.den : ℚ)) ≠ 0 := by exact_mod_cast a.den_nz
  have h2 : ((b.den : ℚ)) ≠ 0 := by exact_mod_cast b.den_nz
  conv_rhs => rw [← Rat.num_div_den a, ← Rat.num_div_den b]
  rw [div_sub_div _ _ h1 h2]
  push_cast
  ring_nf

theorem ratMul_eq (a b : ℚ) : ratMul a b = a * b := by
  rw [ratMul, Rat.mkRat_eq_div]
  conv_rhs => rw [← Rat.num_div_den a, ← Rat.num_div_den b]
  rw [div_mul_div_comm]
  push_cast
  ring_nf

theorem joinSpace_nil : joinSpace [] = "" := rfl

theorem joinSpace_single (a : String) : joinSpace [a] = a := rfl

theorem joinSpace_cons_cons (a b : String) (t : List String) :
    joinSpace (a :: b :: t) = a ++ " " ++ joinSpace (b :: t) := rfl

theorem joinSpace_append (xs ys : List String) (hx : xs ≠ []) (hy : ys ≠ []) :
    joinSpace (xs ++ ys) = joinSpace xs ++ " " ++ joinSpace ys := by
  induction xs with
  | nil => exact absurd rfl hx
  | cons a t ih =>
    cases t with
    | nil =>
      cases ys with
      | nil => exact absurd rfl hy
      | cons b u => simp [joinSpace_cons_cons, joinSpace_single]
    | cons b u =>
      have h2 : (b :: u) ++ ys ≠ [] := by simp
      calc joinSpace (a :: b :: u ++ ys)
          = a ++ " " ++ joinSpace (b :: u ++ ys) := rfl
        _ = a ++ " " ++ (joinSpace (b :: u) ++ " " ++ joinSpace ys) := by
            rw [ih (by simp)]
        _ = joinSpace (a :: b :: u) ++ " " ++ joinSpace ys := by
            rw [joinSpace_cons_cons]
            simp [String.append_assoc]

theorem joinSpace_snoc_congr (X Y : List String) (t : String)
    (hiff : X = [] ↔ Y = []) (h : joinSpace X = joinSpace Y) :
    joinSpace (X ++ [t]) = joinSpace (Y ++ [t]) := by
  by_cases hX : X = []
  · have hY : Y = [] := hiff.mp hX
    subst hX; subst hY; rfl
  · have hY : Y ≠ [] := fun hy => hX (hiff.mpr hy)
    rw [joinSpace_append X [t] hX (by simp), joinSpace_append Y [t] hY (by simp), h]

theorem joinSpace_flatten_last (xs ys : List String) (hy : ys ≠ []) :
    joinSpace (xs ++ [joinSpace ys]) = joinSpace (xs ++ ys) := by
  by_cases hx : xs = []
  · subst hx; simp [joinSpace_single]
  · rw [joinSpace_append xs [joinSpace ys] hx (by simp),
      joinSpace_append xs ys hx hy, joinSpace_single]

theorem wordsAux_eq_nil (l acc : List Char) (h : wordsAux l acc = []) :
    (∀ c ∈ l, pyIsSpace c = true) ∧ acc = [] := by
  induction l generalizing acc with
  | nil =>
    by_cases ha : acc = []
    · exact ⟨by simp, ha⟩
    · rw [wordsAux, if_neg ha] at h
      exact absurd h (by simp)
  | cons c rest ih =>
    by_cases hs : pyIsSpace c
    · by_cases ha : acc = []
      · subst ha
        rw [wordsAux, if_pos hs, if_pos rfl] at h
        have hall := (ih [] h).1
        refine ⟨?_, rfl⟩
        intro x hx
        rcases List.mem_cons.mp hx with h1 | h1
        · subst h1; exact hs
        · exact hall x h1
      · rw [wordsAux, if_pos hs, if_neg ha] at h
        exact absurd h (by simp)
    · rw [wordsAux, if_neg hs] at h
      have := ih (c :: acc) h
      exact absurd this.2 (by simp)

theorem dropWhile_head_false (p : Char → Bool) (l : List Char) (c : Char) (r : List Char)
    (h : l.dropWhile p = c :: r) : p c = false := by
  induction l with
  | nil => simp [List.dropWhile] at h
  | cons a t ih =>
    rw [List.dropWhile_cons] at h
    by_cases hp : p a = true
    · rw [if_pos hp] at h
      exact ih h
    · rw [if_neg hp] at h
      injection h with h1 h2
      subst h1
      simpa using hp

theorem pyStrip_has_nonspace (s : String) (h : pyStrip s ≠ "") :
    ∃ c ∈ (pyStrip s).data, pyIsSpace c = false := by
  have hdata : (pyStrip s).data ≠ [] := by
    intro hd
    apply h
    have : pyStrip s = String.mk (pyStrip s).data := rfl
    rw [this, hd]
  rw [pyStrip] at hdata ⊢
  set d2 := ((s.data.dropWhile pyIsSpace).reverse).dropWhile pyIsSpace with hd2
  have hne : d2 ≠ [] := by
    intro h0
    apply hdata
    show d2.reverse = []
    rw [h0]; rfl
  rcases List.exists_cons_of_ne_nil hne with ⟨c, r, hcr⟩
  refine ⟨c, ?_, dropWhile_head_false pyIsSpace _ c r hcr⟩
  show c ∈ d2.reverse
  rw [hcr]
  simp

theorem pyWords_pos_of_strip_ne (s : String) (h : pyStrip s ≠ "") :
    0 < (pyWords (pyStrip s)).length := by
  rcases pyStrip_has_nonspace s h with ⟨c, hc, hcs⟩
  rw [pyWords, List.length_map]
  rcases Nat.eq_zero_or_pos (wordsAux (pyStrip s).data []).length with h0 | h0
  · have hnil : wordsAux (pyStrip s).data [] = [] := List.length_eq_zero.mp h0
    have := (wordsAux_eq_nil _ _ hnil).1 c hc
    rw [this] at hcs
    exact absurd hcs (by simp)
  · exact h0

theorem segWc_pos (seg : Segment) (h : pyStrip (seg.text.getD "") ≠ "") : 0 < segWc seg :=
  pyWords_pos_of_strip_ne _ h

theorem cuesFrom_cons_skip (i : ℕ) (seg : Segment) (rest : List Segment)
    (h : pyStrip (seg.text.getD "") = "") :
    cuesFrom i (seg :: rest) = cuesFrom (i + 1) rest := by
  rw [cuesFrom, if_pos h]

theorem cuesFrom_cons_emit (i : ℕ) (seg : Segment) (rest : List Segment)
    (h : pyStrip (seg.text.getD "") ≠ "") :
    cuesFrom i (seg :: rest) =
      ⟨i + 1, seg.start.getD 0, seg.stop.getD 0, pyStrip (seg.text.getD "")⟩ ::
        cuesFrom (i + 1) rest := by
  rw [cuesFrom, if_neg h]

theorem cuesFrom_index_gt (segs : List Segment) :
    ∀ i, ∀ c ∈ cuesFrom i segs, i < c.index := by
  induction segs with
  | nil => intro i c hc; simp [cuesFrom] at hc
  | cons seg rest ih =>
    intro i c hc
    by_cases ht : pyStrip (seg.text.getD "") = ""
    · rw [cuesFrom_cons_skip _ _ _ ht] at hc
      have := ih (i + 1) c hc
      omega
    · rw [cuesFrom_cons_emit _ _ _ ht] at hc
      rcases List.mem_cons.mp hc with h1 | h1
      · subst h1
        show i < i + 1
        omega
      · have := ih (i + 1) c h1
        omega

theorem cuesFrom_index_strictMono (segs : List Segment) :
    ∀ i, ((cuesFrom i segs).map SrtCue.index).Pairwise (· < ·) := by
  induction segs with
  | nil => intro i; simp [cuesFrom]
  | cons seg rest ih =>
    intro i
    by_cases ht : pyStrip (seg.text.getD "") = ""
    · rw [cuesFrom_cons_skip _ _ _ ht]; exact ih (i + 1)
    · rw [cuesFrom_cons_emit _ _ _ ht, List.map_cons]
      refine List.pairwise_cons.mpr ⟨?_, ih (i + 1)⟩
      intro j hj
      rcases List.mem_map.mp hj with ⟨c, hc, rfl⟩
      have := cuesFrom_index_gt rest (i + 1) c hc
      show i + 1 < c.index
      omega

theorem cuesFrom_length (segs : List Segment) :
    ∀ i, (cuesFrom i segs).length =
      segs.countP (fun seg => !(pyStrip (seg.text.getD "") == "")) := by
  induction segs with
  | nil => intro i; simp [cuesFrom]
  | cons seg rest ih =>
    intro i
    rw [List.countP_cons]
    by_cases ht : pyStrip (seg.text.getD "") = ""
    · rw [cuesFrom_cons_skip _ _ _ ht, ih (i + 1)]
      simp [ht]
    · rw [cuesFrom_cons_emit _ _ _ ht, List.length_cons, ih (i + 1)]
      simp [ht]

theorem cuesFrom_source (segs : List Segment) :
    ∀ i, ∀ c ∈ cuesFrom i segs,
      ∃ seg, segs[c.index - i - 1]? = some seg ∧
        c.text = pyStrip (seg.text.getD "") ∧ c.text ≠ "" ∧
        c.start = seg.start.getD 0 ∧ c.stop = seg.stop.getD 0 := by
  induction segs with
  | nil => intro i c hc; simp [cuesFrom] at hc
  | cons seg rest ih =>
    intro i c hc
    by_cases ht : pyStrip (seg.text.getD "") = ""
    · rw [cuesFrom_cons_skip _ _ _ ht] at hc
      have hgt := cuesFrom_index_gt rest (i + 1) c hc
      rcases ih (i + 1) c hc with ⟨seg2, hget, h1, h2, h3, h4⟩
      refine ⟨seg2, ?_, h1, h2, h3, h4⟩
      obtain ⟨m, hm⟩ : ∃ m, c.index - i - 1 = m + 1 := ⟨c.index - i - 2, by omega⟩
      rw [hm, List.getElem?_cons_succ]
      have : c.index - (i + 1) - 1 = m := by omega
      rw [this] at hget
      exact hget
    · rw [cuesFrom_cons_emit _ _ _ ht] at hc
      rcases List.mem_cons.mp hc with h1 | h1
      · subst h1
        refine ⟨seg, ?_, rfl, ht, rfl, rfl⟩
        simp
      · have hgt := cuesFrom_index_gt rest (i + 1) c h1
        rcases ih (i + 1) c h1 with ⟨seg2, hget, ha, hb, hcx, hd⟩
        refine ⟨seg2, ?_, ha, hb, hcx, hd⟩
        obtain ⟨m, hm⟩ : ∃ m, c.index - i - 1 = m + 1 := ⟨c.index - i - 2, by omega⟩
        rw [hm, List.getElem?_cons_succ]
        have : c.index - (i + 1) - 1 = m := by omega
        rw [this] at hget
        exact hget

/-- C1 (amended): generate_srt_from_transcript emits one cue per segment with non-empty
trimmed text, each cue carrying the index input-position plus one; emitted indices are
therefore strictly increasing, but a skipped empty segment still consumes an index, so
they are not gapless over the output in general. -/
theorem srt_cues_indexed_by_input_position (segs : List Segment) (lang : Option String) :
    generate_srt_from_transcript (some ⟨lang, some segs⟩) = some (cuesFrom 0 segs) ∧
    ((cuesFrom 0 segs).map SrtCue.index).Pairwise (· < ·) ∧
    (cuesFrom 0 segs).length =
      segs.countP (fun seg => !(pyStrip (seg.text.getD "") == "")) ∧
    ∀ c ∈ cuesFrom 0 segs,
      ∃ seg, segs[c.index - 1]? = some seg ∧
        c.text = pyStrip (seg.text.getD "") ∧ c.text ≠ "" ∧
        c.start = seg.start.getD 0 ∧ c.stop = seg.stop.getD 0 := by
  refine ⟨rfl, cuesFrom_index_strictMono segs 0, cuesFrom_length segs 0, ?_⟩
  intro c hc
  have := cuesFrom_source segs 0 c hc
  simpa using this

/-- C1 witness: the amended theorem applied to the four-segment transcript whose second
segment is empty, at the first emitted cue. -/
theorem srt_cues_indexed_by_input_position_witness :
    ∃ seg, ([mkSeg "a" 0 1, mkSeg "" 1 2, mkSeg "b" 2 3, mkSeg "c" 3 4] : List Segment)[0]? =
        some seg ∧
      "a" = pyStrip (seg.text.getD "") ∧ ("a" : String) ≠ "" ∧
      (0 : ℚ) = seg.start.getD 0 ∧ (1 : ℚ) = seg.stop.getD 0 :=
  (srt_cues_indexed_by_input_position
      [mkSeg "a" 0 1, mkSeg "" 1 2, mkSeg "b" 2 3, mkSeg "c" 3 4] (some "en")).2.2.2
    ⟨1, 0, 1, "a"⟩ (by decide)

/-- C1 counterexample: with the empty segment in the middle of four segments, exactly three
cues are emitted but their indices are 1, 3, 4, not the gapless 1, 2, 3 the claim states. -/
theorem srt_index_gap_counterexample :
    (generate_srt_from_transcript (some ⟨some "en",
        some [mkSeg "a" 0 1, mkSeg "" 1 2, mkSeg "b" 2 3, mkSeg "c" 3 4]⟩)).map
      (fun cs => cs.map SrtCue.index) = some [1, 3, 4] ∧
    ([1, 3, 4] : List ℕ) ≠ [1, 2, 3] := by
  decide

/-- C5: under exact arithmetic the truncation formula meets the fixtures for 0.0, 1.234 and
3661.0, but at the binary64 value of the literal 65.05, which is exactly
4577486808757043 / 2 ^ 46, the code computes 49 milliseconds and prints 00:01:05,049.
Every binary64 operation the code performs at that input is exact (the subtraction of 65
and the multiplication by 1000 are both representable), so this rational evaluation
coincides with the Python execution, which therefore fails the fixture 00:01:05,050
asserted by the claim and by the repository test suite. -/
theorem format_srt_timestamp_truncation_vs_fixtures :
    format_srt_timestamp 0 = "00:00:00,000" ∧
    format_srt_timestamp (mkRat 1234 1000) = "00:00:01,234" ∧
    format_srt_timestamp (mkRat 6505 100) = "00:01:05,050" ∧
    format_srt_timestamp 3661 = "01:01:01,000" ∧
    format_srt_timestamp (mkRat 4577486808757043 70368744177664) = "00:01:05,049" ∧
    ("00:01:05,049" : String) ≠ "00:01:05,050" := by
  refine ⟨by decide, by decide, by decide, by decide, by decide, by decide⟩

/-- C6: an absent transcript, a transcript without a segments key, and an empty segment
list all make the chunker return the empty scene list with no prompt calls, and make the
subtitle builder return its failure signal (for the first two) or the empty cue list (for
the empty segment list); all three functions are total, so no exception is possible. -/
theorem empty_and_malformed_inputs_handled (gen : String → String → Option String)
    (wpc : ℕ) (lang : Option String) :
    split_transcript_into_scenes gen none wpc = [] ∧
    split_transcript_into_scenes gen (some ⟨lang, none⟩) wpc = [] ∧
    split_transcript_into_scenes gen (some ⟨lang, some []⟩) wpc = [] ∧
    splitPromptArgs gen none wpc = [] ∧
    splitPromptArgs gen (some ⟨lang, none⟩) wpc = [] ∧
    splitPromptArgs gen (some ⟨lang, some []⟩) wpc = [] ∧
    generate_srt_from_transcript none = none ∧
    generate_srt_from_transcript (some ⟨lang, none⟩) = none ∧
    generate_srt_from_transcript (some ⟨lang, some []⟩) = some [] :=
  ⟨rfl, rfl, rfl, rfl, rfl, rfl, rfl, rfl, rfl⟩

theorem step_skip (gen : String → String → Option String) (lang : String) (wpc : ℕ)
    (s : SplitState) (seg : Segment) (h : pyStrip (seg.text.getD "") = "") :
    step gen lang wpc s seg = s := by
  simp only [step]
  rw [if_pos h]

theorem step_oversized (gen : String → String → Option String) (lang : String) (wpc : ℕ)
    (s : SplitState) (seg : Segment) (h0 : s.curWc = 0)
    (ht : pyStrip (seg.text.getD "") ≠ "") (hb : 3 * wpc ≤ 2 * segWc seg) :
    step gen lang wpc s seg =
      { s with
        scenes := s.scenes ++
          [⟨pyStrip (seg.text.getD ""), seg.start.getD 0, seg.stop.getD 0,
            gen (pyStrip (seg.text.getD "")) lang⟩],
        promptArgs := s.promptArgs ++ [pyStrip (seg.text.getD "")] } := by
  simp only [step]
  rw [if_neg ht, if_pos ⟨h0, hb⟩]

theorem step_flush (gen : String → String → Option String) (lang : String) (wpc : ℕ)
    (s : SplitState) (seg : Segment) (hpos : 0 < s.curWc)
    (ht : pyStrip (seg.text.getD "") ≠ "") (hover : wpc + 5 < s.curWc + segWc seg) :
    step gen lang wpc s seg =
      { scenes := s.scenes ++
          [⟨joinSpace s.curText, s.cst, s.cet, gen (joinSpace s.curText) lang⟩],
        curText := [pyStrip (seg.text.getD "")],
        curWc := segWc seg,
        cst := seg.start.getD 0,
        cet := seg.stop.getD 0,
        promptArgs := s.promptArgs ++ [joinSpace s.curText] } := by
  simp only [step]
  rw [if_neg ht, if_neg (fun hand => by omega), if_pos ⟨hpos, hover⟩]
  rfl

theorem step_merge (gen : String → String → Option String) (lang : String) (wpc : ℕ)
    (s : SplitState) (seg : Segment)
    (ht : pyStrip (seg.text.getD "") ≠ "")
    (h1 : ¬(s.curWc = 0 ∧ 3 * wpc ≤ 2 * segWc seg))
    (h2 : ¬(0 < s.curWc ∧ wpc + 5 < s.curWc + segWc seg)) :
    step gen lang wpc s seg =
      { s with
        curText := s.curText ++ [pyStrip (seg.text.getD "")],
        curWc := s.curWc + segWc seg,
        cst := if s.cst < 0 then seg.start.getD 0 else s.cst,
        cet := seg.stop.getD 0 } := by
  have h1a : ¬(s.curWc = 0 ∧ 3 * wpc ≤ 2 * (pyWords (pyStrip (seg.text.getD ""))).length) := h1
  have h2a : ¬(0 < s.curWc ∧ wpc + 5 < s.curWc + (pyWords (pyStrip (seg.text.getD ""))).length) :=
    h2
  simp only [step]
  rw [if_neg ht, if_neg h1a, if_neg h2a]
  rfl

/-- Accumulator representation: the loop state holds exactly the stripped texts, word count,
first start time and last end time of the non-empty segment list L. -/
def AccRep (s : SplitState) (L : List Segment) : Prop :=
  L ≠ [] ∧
  (∀ seg ∈ L, pyStrip (seg.text.getD "") ≠ "") ∧
  s.curText = L.map (fun seg => pyStrip (seg.text.getD "")) ∧
  s.curWc = (L.map segWc).sum ∧
  s.cst = firstStart L ∧
  s.cet = lastEnd L

instance accRepDecidable (s : SplitState) (L : List Segment) : Decidable (AccRep s L) := by
  unfold AccRep
  exact inferInstance

theorem AccRep.wc_pos (s : SplitState) (L : List Segment) (h : AccRep s L) : 0 < s.curWc := by
  rcases h with ⟨hne, hall, -, hwc, -, -⟩
  rcases List.exists_cons_of_ne_nil hne with ⟨seg, t, rfl⟩
  have hp : 0 < segWc seg := segWc_pos seg (hall seg (by simp))
  rw [hwc, List.map_cons, List.sum_cons]
  omega

theorem AccRep_merge (gen : String → String → Option String) (lang : String) (wpc : ℕ)
    (s : SplitState) (L : List Segment) (seg : Segment)
    (hacc : AccRep s L) (hstart : 0 ≤ firstStart L)
    (ht : pyStrip (seg.text.getD "") ≠ "")
    (h2 : ¬(0 < s.curWc ∧ wpc + 5 < s.curWc + segWc seg)) :
    AccRep (step gen lang wpc s seg) (L ++ [seg]) := by
  have hpos := AccRep.wc_pos s L hacc
  rcases hacc with ⟨hne, hall, htext, hwc, hcst, hcet⟩
  rw [step_merge gen lang wpc s seg ht (fun hand => by omega) h2]
  refine ⟨by simp, ?_, ?_, ?_, ?_, ?_⟩
  · intro x hx
    rcases List.mem_append.mp hx with h | h
    · exact hall x h
    · rw [List.mem_singleton.mp h]; exact ht
  · show s.curText ++ [pyStrip (seg.text.getD "")] = _
    rw [htext, List.map_append, List.map_singleton]
  · show s.curWc + segWc seg = _
    rw [hwc, List.map_append, List.sum_append, List.map_singleton, List.sum_singleton]
  · show (if s.cst < 0 then seg.start.getD 0 else s.cst) = firstStart (L ++ [seg])
    rcases List.exists_cons_of_ne_nil hne with ⟨a, t, rfl⟩
    rw [hcst]
    rw [if_neg (by rw [firstStart] at hstart ⊢; exact not_lt.mpr hstart)]
    rfl
  · show seg.stop.getD 0 = lastEnd (L ++ [seg])
    rw [lastEnd, List.getLast?_append]
    rfl

/-- C2: when the accumulator represents the non-empty segment list L and the incoming
non-empty segment would overflow words_per_chunk plus five, the accumulator is flushed as a
scene whose start_time is the first accumulated segment's start and whose end_time is the
last accumulated segment's end, and the incoming segment seeds the new accumulator; in the
three-segment scenario with word counts 10, 7, 5 and words_per_chunk 10 this yields exactly
the scenes for segment one and for segments two plus three. -/
theorem split_flush_before_overflow :
    (∀ (gen : String → String → Option String) (lang : String) (wpc : ℕ)
        (s : SplitState) (L : List Segment) (seg : Segment),
      AccRep s L →
      pyStrip (seg.text.getD "") ≠ "" →
      wpc + 5 < s.curWc + segWc seg →
      step gen lang wpc s seg =
        { scenes := s.scenes ++
            [⟨joinSpace s.curText, firstStart L, lastEnd L, gen (joinSpace s.curText) lang⟩],
          curText := [pyStrip (seg.text.getD "")],
          curWc := segWc seg,
          cst := seg.start.getD 0,
          cet := seg.stop.getD 0,
          promptArgs := s.promptArgs ++ [joinSpace s.curText] } ∧
        AccRep (step gen lang wpc s seg) [seg]) ∧
    (∀ gen : String → String → Option String,
      split_transcript_into_scenes gen (some ⟨some "en",
          some [mkSeg "a b c d e f g h i j" 0 5, mkSeg "k l m n o p q" 6 10,
                mkSeg "r s t u v" 11 15]⟩) 10 =
        [⟨"a b c d e f g h i j", 0, 5, gen "a b c d e f g h i j" "en"⟩,
         ⟨"k l m n o p q r s t u v", 6, 15, gen "k l m n o p q r s t u v" "en"⟩]) := by
  constructor
  · intro gen lang wpc s L seg hacc ht hover
    have hpos := AccRep.wc_pos s L hacc
    have hstep := step_flush gen lang wpc s seg hpos ht hover
    constructor
    · rw [hstep, hacc.2.2.2.2.1, hacc.2.2.2.2.2]
    · rw [hstep]
      refine ⟨by simp, ?_, by simp [List.map_singleton], by simp, rfl, ?_⟩
      · intro x hx
        rw [List.mem_singleton.mp hx]; exact ht
      · show seg.stop.getD 0 = lastEnd [seg]
        rfl
  · intro gen
    rfl

/-- C2 witness: the flush rule applied to the state reached after the ten-word segment,
with the seven-word segment incoming and words_per_chunk ten. -/
theorem split_flush_before_overflow_witness :
    step (fun _ _ => none) "en" 10 ⟨[], ["a b c d e f g h i j"], 10, 0, 5, []⟩
        (mkSeg "k l m n o p q" 6 10) =
      ⟨[⟨"a b c d e f g h i j", 0, 5, none⟩], ["k l m n o p q"], 7, 6, 10,
        ["a b c d e f g h i j"]⟩ ∧
    AccRep (step (fun _ _ => none) "en" 10 ⟨[], ["a b c d e f g h i j"], 10, 0, 5, []⟩
        (mkSeg "k l m n o p q" 6 10)) [mkSeg "k l m n o p q" 6 10] :=
  split_flush_before_overflow.1 (fun _ _ => none) "en" 10
    ⟨[], ["a b c d e f g h i j"], 10, 0, 5, []⟩ [mkSeg "a b c d e f g h i j" 0 5]
    (mkSeg "k l m n o p q" 6 10) (by decide) (by decide) (by decide)

/-- C3 (amended): a non-empty segment arriving on an empty accumulator whose word count is
at least 1.5 times words_per_chunk is emitted alone as its own scene, with chunk_text the
whitespace-trimmed segment text (verbatim whenever the text carries no surrounding
whitespace), start and end the segment's own times, exactly one prompt call for it, and the
accumulator left untouched; the single 20-word segment with words_per_chunk 10 yields
exactly one scene and one prompt call with the text verbatim. -/
theorem split_oversized_segment_own_scene :
    (∀ (gen : String → String → Option String) (lang : String) (wpc : ℕ)
        (s : SplitState) (seg : Segment),
      s.curWc = 0 →
      pyStrip (seg.text.getD "") ≠ "" →
      3 * wpc ≤ 2 * segWc seg →
      step gen lang wpc s seg =
        { s with
          scenes := s.scenes ++
            [⟨pyStrip (seg.text.getD ""), seg.start.getD 0, seg.stop.getD 0,
              gen (pyStrip (seg.text.getD "")) lang⟩],
          promptArgs := s.promptArgs ++ [pyStrip (seg.text.getD "")] }) ∧
    (∀ gen : String → String → Option String,
      split_transcript_into_scenes gen (some ⟨some "en",
          some [mkSeg "a b c d e f g h i j k l m n o p q r s t" 0 10]⟩) 10 =
        [⟨"a b c d e f g h i j k l m n o p q r s t", 0, 10,
          gen "a b c d e f g h i j k l m n o p q r s t" "en"⟩] ∧
      splitPromptArgs gen (some ⟨some "en",
          some [mkSeg "a b c d e f g h i j k l m n o p q r s t" 0 10]⟩) 10 =
        ["a b c d e f g h i j k l m n o p q r s t"]) := by
  constructor
  · intro gen lang wpc s seg h0 ht hb
    exact step_oversized gen lang wpc s seg h0 ht hb
  · intro gen
    exact ⟨rfl, rfl⟩

/-- C3 witness: the oversized rule applied to the initial state and the 20-word segment
with words_per_chunk 10. -/
theorem split_oversized_segment_own_scene_witness :
    step (fun _ _ => none) "en" 10 initState
        (mkSeg "a b c d e f g h i j k l m n o p q r s t" 0 10) =
      ⟨[⟨"a b c d e f g h i j k l m n o p q r s t", 0, 10, none⟩], [], 0, -1, -1,
        ["a b c d e f g h i j k l m n o p q r s t"]⟩ :=
  split_oversized_segment_own_scene.1 (fun _ _ => none) "en" 10 initState
    (mkSeg "a b c d e f g h i j k l m n o p q r s t" 0 10) rfl (by decide) (by decide)

/-- C3 counterexample: when the oversized segment text carries a trailing space, the scene
chunk_text is the trimmed text, not the segment text verbatim as the claim states. -/
theorem split_oversized_verbatim_counterexample :
    (split_transcript_into_scenes (fun _ _ => none) (some ⟨some "en",
        some [mkSeg "a b c d e f g h i j k l m n o p q r s t " 0 10]⟩) 10).map
      Scene.chunk_text = ["a b c d e f g h i j k l m n o p q r s t"] ∧
    (mkSeg "a b c d e f g h i j k l m n o p q r s t " 0 10).text =
      some "a b c d e f g h i j k l m n o p q r s t " ∧
    ("a b c d e f g h i j k l m n o p q r s t" : String) ≠
      "a b c d e f g h i j k l m n o p q r s t " := by
  decide

theorem segTexts_cons_eq (seg : Segment) (rest : List Segment) :
    segTexts (seg :: rest) = segTexts [seg] ++ segTexts rest := by
  simp only [segTexts, List.filterMap_cons]
  by_cases h : pyStrip (seg.text.getD "") = "" <;> simp [h]

theorem segTexts_skip (seg : Segment) (h : pyStrip (seg.text.getD "") = "") :
    segTexts [seg] = [] := by
  simp [segTexts, h]

theorem segTexts_keep (seg : Segment) (h : pyStrip (seg.text.getD "") ≠ "") :
    segTexts [seg] = [pyStrip (seg.text.getD "")] := by
  simp [segTexts, h]

/-- Coverage invariant, stated over the chunk texts of the emitted scenes, the accumulator
and its word count: the space-joined output so far equals the space-joined non-empty
stripped texts processed so far. -/
def CoverInvParts (M C : List String) (w : ℕ) (ne : List String) : Prop :=
  joinSpace (M ++ C) = joinSpace ne ∧ (M ++ C = [] ↔ ne = []) ∧ (C = [] ↔ w = 0)

/-- Coverage invariant of a loop state against the processed non-empty texts. -/
def CoverInv (s : SplitState) (ne : List String) : Prop :=
  CoverInvParts (s.scenes.map Scene.chunk_text) s.curText s.curWc ne

theorem coverInvParts_emit (M : List String) (ne : List String) (t : String)
    (h : CoverInvParts M [] 0 ne) : CoverInvParts (M ++ [t]) [] 0 (ne ++ [t]) := by
  obtain ⟨hjoin, hemp, -⟩ := h
  rw [List.append_nil] at hjoin hemp
  refine ⟨?_, by simp, by simp⟩
  rw [List.append_nil]
  exact joinSpace_snoc_congr M ne t hemp hjoin

theorem coverInvParts_flush (M C : List String) (w w2 : ℕ) (ne : List String) (t : String)
    (h : CoverInvParts M C w ne) (hC : C ≠ []) (hw2 : w2 ≠ 0) :
    CoverInvParts (M ++ [joinSpace C]) [t] w2 (ne ++ [t]) := by
  obtain ⟨hjoin, hemp, -⟩ := h
  have hne : ne ≠ [] := by
    intro h0
    exact hC (List.append_eq_nil.mp (hemp.mpr h0)).2
  refine ⟨?_, by simp, by simp [hw2]⟩
  have hX : M ++ [joinSpace C] ≠ [] := by simp
  rw [joinSpace_append (M ++ [joinSpace C]) [t] hX (by simp),
    joinSpace_flatten_last M C hC, hjoin, joinSpace_single,
    joinSpace_append ne [t] hne (by simp), joinSpace_single]

theorem coverInvParts_merge (M C : List String) (w w2 : ℕ) (ne : List String) (t : String)
    (h : CoverInvParts M C w ne) (hw2 : w2 ≠ 0) :
    CoverInvParts M (C ++ [t]) (w + w2) (ne ++ [t]) := by
  obtain ⟨hjoin, hemp, -⟩ := h
  refine ⟨?_, by simp, by simp [hw2]⟩
  rw [← List.append_assoc]
  exact joinSpace_snoc_congr (M ++ C) ne t hemp hjoin

theorem coverInv_step (gen : String → String → Option String) (lang : String) (wpc : ℕ)
    (s : SplitState) (seg : Segment) (ne : List String) (h : CoverInv s ne) :
    CoverInv (step gen lang wpc s seg) (ne ++ segTexts [seg]) := by
  by_cases ht : pyStrip (seg.text.getD "") = ""
  · rw [step_skip gen lang wpc s seg ht, segTexts_skip seg ht, List.append_nil]
    exact h
  · have hwcpos : 0 < segWc seg := segWc_pos seg ht
    rw [segTexts_keep seg ht]
    by_cases hb : s.curWc = 0 ∧ 3 * wpc ≤ 2 * segWc seg
    · rw [step_oversized gen lang wpc s seg hb.1 ht hb.2]
      have hcur : s.curText = [] := h.2.2.mpr hb.1
      show CoverInvParts ((s.scenes ++ [Scene.mk (pyStrip (seg.text.getD ""))
        (seg.start.getD 0) (seg.stop.getD 0) (gen (pyStrip (seg.text.getD "")) lang)]).map
        Scene.chunk_text) s.curText s.curWc (ne ++ [pyStrip (seg.text.getD "")])
      rw [List.map_append, List.map_singleton, hcur, hb.1]
      refine coverInvParts_emit _ ne _ ?_
      have h0 := h
      rw [CoverInv, hcur, hb.1] at h0
      exact h0
    · by_cases hf : 0 < s.curWc ∧ wpc + 5 < s.curWc + segWc seg
      · rw [step_flush gen lang wpc s seg hf.1 ht hf.2]
        have hcur : s.curText ≠ [] := by
          intro h0
          have := h.2.2.mp h0
          omega
        show CoverInvParts ((s.scenes ++ [Scene.mk (joinSpace s.curText) s.cst s.cet
          (gen (joinSpace s.curText) lang)]).map Scene.chunk_text)
          [pyStrip (seg.text.getD "")] (segWc seg) (ne ++ [pyStrip (seg.text.getD "")])
        rw [List.map_append, List.map_singleton]
        exact coverInvParts_flush _ _ s.curWc (segWc seg) ne _ h hcur (by omega)
      · rw [step_merge gen lang wpc s seg ht hb hf]
        show CoverInvParts (s.scenes.map Scene.chunk_text)
          (s.curText ++ [pyStrip (seg.text.getD "")]) (s.curWc + segWc seg)
          (ne ++ [pyStrip (seg.text.getD "")])
        exact coverInvParts_merge _ _ s.curWc (segWc seg) ne _ h (by omega)

theorem coverInv_fold (gen : String → String → Option String) (lang : String) (wpc : ℕ) :
    ∀ (segs : List Segment) (s : SplitState) (ne : List String), CoverInv s ne →
      CoverInv (segs.foldl (step gen lang wpc) s) (ne ++ segTexts segs) := by
  intro segs
  induction segs with
  | nil =>
    intro s ne h
    simpa [segTexts] using h
  | cons seg rest ih =>
    intro s ne h
    rw [List.foldl_cons, segTexts_cons_eq, ← List.append_assoc]
    exact ih (step gen lang wpc s seg) (ne ++ segTexts [seg])
      (coverInv_step gen lang wpc s seg ne h)

/-- C4: for every transcript and every words_per_chunk, the space-joined chunk texts of the
scenes, in output order, equal the space-joined stripped non-empty segment texts of the
transcript, in input order: no text is dropped or duplicated except whitespace-only
segments. -/
theorem split_concatenation_coverage (gen : String → String → Option String)
    (t : Option Transcript) (wpc : ℕ) :
    joinSpace ((split_transcript_into_scenes gen t wpc).map Scene.chunk_text) =
      joinSpace (transcriptTexts t) := by
  match t with
  | none => rfl
  | some td =>
    match htd : td.segments with
    | none =>
      simp [split_transcript_into_scenes, transcriptTexts, htd, segTexts]
    | some [] =>
      simp [split_transcript_into_scenes, transcriptTexts, htd, segTexts]
    | some (seg :: rest) =>
      have hinit : CoverInv initState [] := ⟨rfl, by simp [initState], by simp [initState]⟩
      have hinv := coverInv_fold gen (td.language.getD "en") wpc (seg :: rest) initState []
        hinit
      rw [List.nil_append] at hinv
      simp only [split_transcript_into_scenes, transcriptTexts, htd, Option.getD_some]
      set F := (seg :: rest).foldl (step gen (td.language.getD "en") wpc) initState with hF
      obtain ⟨hjoin, hemp, hwc⟩ := hinv
      rw [finishScenes]
      by_cases hc : F.curText = []
      · rw [if_pos hc]
        rw [hc, List.append_nil] at hjoin
        exact hjoin
      · rw [if_neg hc, List.map_append, List.map_singleton]
        rw [joinSpace_flatten_last _ _ hc]
        exact hjoin

/-- Timing invariant: emitted scenes have ordered times; an empty accumulator still has the
initial negative chunk start time; a non-empty accumulator has ordered chunk times and a
chunk start time below every remaining segment start. -/
def TimesOk (s : SplitState) (segs : List Segment) : Prop :=
  (∀ sc ∈ s.scenes, sc.start_time ≤ sc.end_time) ∧
  (s.curWc = 0 → s.curText = [] ∧ s.cst < 0) ∧
  (s.curWc ≠ 0 → s.curText ≠ [] ∧ s.cst ≤ s.cet ∧ ∀ seg ∈ segs, s.cst ≤ seg.start.getD 0)

theorem timesOk_fold (gen : String → String → Option String) (lang : String) (wpc : ℕ) :
    ∀ (segs : List Segment) (s : SplitState),
      List.Pairwise (fun a b => a.start.getD 0 ≤ b.start.getD 0) segs →
      (∀ seg ∈ segs, seg.start.getD 0 ≤ seg.stop.getD 0) →
      TimesOk s segs →
      TimesOk (segs.foldl (step gen lang wpc) s) [] := by
  intro segs
  induction segs with
  | nil => intro s _ _ h; exact h
  | cons seg rest ih =>
    intro s hpw hse h
    rw [List.foldl_cons]
    have hhead := (List.pairwise_cons.mp hpw).1
    have hpw2 := (List.pairwise_cons.mp hpw).2
    have hse2 : ∀ x ∈ rest, x.start.getD 0 ≤ x.stop.getD 0 := fun x hx => hse x (by simp [hx])
    have hsegse : seg.start.getD 0 ≤ seg.stop.getD 0 := hse seg (by simp)
    apply ih (step gen lang wpc s seg) hpw2 hse2
    obtain ⟨hsc, h0, h1⟩ := h
    by_cases ht : pyStrip (seg.text.getD "") = ""
    · rw [step_skip gen lang wpc s seg ht]
      refine ⟨hsc, h0, fun hw => ?_⟩
      obtain ⟨ha, hb, hc⟩ := h1 hw
      exact ⟨ha, hb, fun x hx => hc x (by simp [hx])⟩
    · have hwcpos : 0 < segWc seg := segWc_pos seg ht
      by_cases hb : s.curWc = 0 ∧ 3 * wpc ≤ 2 * segWc seg
      · rw [step_oversized gen lang wpc s seg hb.1 ht hb.2]
        refine ⟨?_, fun hw => h0 hw, fun hw => absurd hb.1 hw⟩
        intro sc hsc2
        rcases List.mem_append.mp hsc2 with h2 | h2
        · exact hsc sc h2
        · rw [List.mem_singleton.mp h2]
          exact hsegse
      · by_cases hf : 0 < s.curWc ∧ wpc + 5 < s.curWc + segWc seg
        · rw [step_flush gen lang wpc s seg hf.1 ht hf.2]
          obtain ⟨ha, hb2, hc⟩ := h1 (by omega)
          refine ⟨?_, fun hw => absurd hw ((by omega : segWc seg ≠ 0)), fun hw => ?_⟩
          · intro sc hsc2
            rcases List.mem_append.mp hsc2 with h2 | h2
            · exact hsc sc h2
            · rw [List.mem_singleton.mp h2]
              exact hb2
          · refine ⟨by simp, hsegse, fun x hx => hhead x hx⟩
        · rw [step_merge gen lang wpc s seg ht hb hf]
          refine ⟨hsc, fun hw => absurd hw ((by omega : s.curWc + segWc seg ≠ 0)),
            fun hw => ?_⟩
          by_cases hcst : s.cst < 0
          · refine ⟨by simp, ?_, ?_⟩
            · show (if s.cst < 0 then seg.start.getD 0 else s.cst) ≤ seg.stop.getD 0
              rw [if_pos hcst]
              exact hsegse
            · intro x hx
              show (if s.cst < 0 then seg.start.getD 0 else s.cst) ≤ x.start.getD 0
              rw [if_pos hcst]
              exact hhead x hx
          · have hw0 : s.curWc ≠ 0 := fun h00 => hcst (h0 h00).2
            obtain ⟨ha, hb2, hc⟩ := h1 hw0
            refine ⟨by simp, ?_, ?_⟩
            · show (if s.cst < 0 then seg.start.getD 0 else s.cst) ≤ seg.stop.getD 0
              rw [if_neg hcst]
              exact le_trans (hc seg (by simp)) hsegse
            · intro x hx
              show (if s.cst < 0 then seg.start.getD 0 else s.cst) ≤ x.start.getD 0
              rw [if_neg hcst]
              exact hc x (by simp [hx])

/-- C7: for a transcript whose segments each satisfy end at least start and whose starts are
ascending, every emitted scene satisfies start_time at most end_time; no ordering between
consecutive scenes is claimed. -/
theorem split_scene_times_ordered (gen : String → String → Option String)
    (lang : Option String) (wpc : ℕ) (segs : List Segment)
    (hsorted : List.Pairwise (fun a b => a.start.getD 0 ≤ b.start.getD 0) segs)
    (hdur : ∀ seg ∈ segs, seg.start.getD 0 ≤ seg.stop.getD 0) :
    ∀ sc ∈ split_transcript_into_scenes gen (some ⟨lang, some segs⟩) wpc,
      sc.start_time ≤ sc.end_time := by
  cases segs with
  | nil =>
    intro sc hsc
    simp [split_transcript_into_scenes] at hsc
  | cons seg rest =>
    intro sc hsc
    have hinit : TimesOk initState (seg :: rest) := by
      refine ⟨by simp [initState], fun _ => ⟨rfl, by norm_num [initState]⟩,
        fun hw => absurd rfl hw⟩
    have hfin := timesOk_fold gen (lang.getD "en") wpc (seg :: rest) initState hsorted hdur
      hinit
    obtain ⟨hsc2, h0, h1⟩ := hfin
    have hsc3 : sc ∈ finishScenes gen (lang.getD "en")
        ((seg :: rest).foldl (step gen (lang.getD "en") wpc) initState) := hsc
    set F := (seg :: rest).foldl (step gen (lang.getD "en") wpc) initState with hF
    rw [finishScenes] at hsc3
    by_cases hc : F.curText = []
    · rw [if_pos hc] at hsc3
      exact hsc2 sc hsc3
    · rw [if_neg hc] at hsc3
      rcases List.mem_append.mp hsc3 with h2 | h2
      · exact hsc2 sc h2
      · rw [List.mem_singleton.mp h2]
        have hw0 : F.curWc ≠ 0 := fun h00 => hc (h0 h00).1
        exact (h1 hw0).2.1

/-- C7 witness: the theorem applied to a two-segment ordered transcript, at the single
scene it produces. -/
theorem split_scene_times_ordered_witness :
    (Scene.mk "hello world" 0 3 none).start_time ≤ (Scene.mk "hello world" 0 3 none).end_time :=
  split_scene_times_ordered (fun _ _ => none) (some "en") 20
    [mkSeg "hello" 0 1, mkSeg "world" 2 3] (by decide) (by decide)
    (Scene.mk "hello world" 0 3 none) (by decide)

/-- C8: a scene survives the compose_video filtering exactly when its image file exists and
its duration is positive; scenes failing either check are skipped without failing the
operation, and the whole composition fails exactly when no image placement survives. -/
theorem compose_video_skip_and_failure (imageExists : ℕ → Bool) (scenes_data : List Scene) :
    (∀ p : ℕ × Scene, p ∈ composeImagePlacements imageExists scenes_data ↔
      p ∈ scenes_data.enum ∧ imageExists p.1 = true ∧ 0 < p.2.end_time - p.2.start_time) ∧
    (composeHasClips imageExists scenes_data = false ↔
      composeImagePlacements imageExists scenes_data = []) ∧
    (composeImagePlacements imageExists scenes_data = [] ↔
      ∀ p ∈ scenes_data.enum, imageExists p.1 = false ∨
        p.2.end_time - p.2.start_time ≤ 0) := by
  refine ⟨?_, ?_, ?_⟩
  · intro p
    rw [composeImagePlacements, List.mem_filter]
    constructor
    · rintro ⟨h1, h2⟩
      rw [Bool.and_eq_true] at h2
      exact ⟨h1, h2.1, of_decide_eq_true h2.2⟩
    · rintro ⟨h1, h2, h3⟩
      refine ⟨h1, ?_⟩
      rw [Bool.and_eq_true]
      exact ⟨h2, decide_eq_true h3⟩
  · rw [composeHasClips]
    constructor
    · intro h
      cases hi : (composeImagePlacements imageExists scenes_data).isEmpty with
      | false => rw [hi] at h; exact absurd h (by simp)
      | true => exact List.isEmpty_iff.mp hi
    · intro h
      rw [h]
      rfl
  · constructor
    · intro h p hp
      by_contra hcon
      push_neg at hcon
      obtain ⟨hex, hd⟩ := hcon
      have hex2 : imageExists p.1 = true := by
        cases hEE : imageExists p.1 with
        | false => exact absurd hEE hex
        | true => rfl
      have hmem : p ∈ composeImagePlacements imageExists scenes_data := by
        rw [composeImagePlacements, List.mem_filter]
        refine ⟨hp, ?_⟩
        rw [Bool.and_eq_true]
        exact ⟨hex2, decide_eq_true hd⟩
      rw [h] at hmem
      exact absurd hmem (by simp)
    · intro h
      rw [composeImagePlacements]
      apply List.filter_eq_nil_iff.mpr
      intro p hp
      rcases h p hp with h1 | h1
      · simp [h1]
      · simp only [Bool.and_eq_true, decide_eq_true_eq, not_and]
        intro _
        exact not_lt.mpr h1

theorem split_eq_finish (gen : String → String → Option String) (lang : Option String)
    (wpc : ℕ) (L : List Segment) :
    split_transcript_into_scenes gen (some ⟨lang, some L⟩) wpc =
      finishScenes gen (lang.getD "en") (L.foldl (step gen (lang.getD "en") wpc) initState) := by
  cases L with
  | nil => rfl
  | cons a t => rfl

theorem splitPromptArgs_eq_finish (gen : String → String → Option String)
    (lang : Option String) (wpc : ℕ) (L : List Segment) :
    splitPromptArgs gen (some ⟨lang, some L⟩) wpc =
      finishPromptArgs (L.foldl (step gen (lang.getD "en") wpc) initState) := by
  cases L with
  | nil => rfl
  | cons a t => rfl

theorem step_norm_fields (gen : String → String → Option String) (lang : String) (wpc : ℕ)
    (s : SplitState) (seg : Segment) :
    step gen lang wpc s seg =
      step gen lang wpc s
        (Segment.mk (some (seg.text.getD "")) (some (seg.start.getD 0))
          (some (seg.stop.getD 0))) := rfl

/-- C10: split_transcript_into_scenes is total on partially-formed segments: a missing text
key defaults to the empty string so the segment is skipped exactly like an empty one
(removing it from the list changes nothing), and missing start or end keys default to 0.0,
so a segment behaves exactly like the segment with the defaulted fields filled in. -/
theorem split_total_on_missing_fields :
    (∀ (gen : String → String → Option String) (lang : String) (wpc : ℕ)
        (s : SplitState) (seg : Segment), seg.text = none → step gen lang wpc s seg = s) ∧
    (∀ (gen : String → String → Option String) (lang : Option String) (wpc : ℕ)
        (A B : List Segment) (seg : Segment), seg.text = none →
      split_transcript_into_scenes gen (some ⟨lang, some (A ++ seg :: B)⟩) wpc =
        split_transcript_into_scenes gen (some ⟨lang, some (A ++ B)⟩) wpc) ∧
    (∀ (gen : String → String → Option String) (lang : Option String) (wpc : ℕ)
        (A B : List Segment) (seg : Segment),
      split_transcript_into_scenes gen (some ⟨lang, some (A ++ seg :: B)⟩) wpc =
        split_transcript_into_scenes gen (some ⟨lang, some (A ++
          Segment.mk (some (seg.text.getD "")) (some (seg.start.getD 0))
            (some (seg.stop.getD 0)) :: B)⟩) wpc) := by
  have hskip : ∀ (gen : String → String → Option String) (lang : String) (wpc : ℕ)
      (s : SplitState) (seg : Segment), seg.text = none → step gen lang wpc s seg = s := by
    intro gen lang wpc s seg h
    apply step_skip
    rw [h]
    rfl
  refine ⟨hskip, ?_, ?_⟩
  · intro gen lang wpc A B seg h
    rw [split_eq_finish, split_eq_finish, List.foldl_append, List.foldl_append,
      List.foldl_cons, hskip gen (lang.getD "en") wpc _ seg h]
  · intro gen lang wpc A B seg
    rw [split_eq_finish, split_eq_finish, List.foldl_append, List.foldl_append,
      List.foldl_cons, List.foldl_cons,
      step_norm_fields gen (lang.getD "en") wpc (A.foldl (step gen (lang.getD "en") wpc)
        initState) seg]

/-- C10 witness: a segment with no text key and a present segment; removing the textless
segment leaves the output unchanged. -/
theorem split_total_on_missing_fields_witness :
    split_transcript_into_scenes (fun _ _ => none)
        (some ⟨some "en",
          some ([] ++ Segment.mk none (some 0) (some 1) :: [mkSeg "hello world" 1 2])⟩) 20 =
      split_transcript_into_scenes (fun _ _ => none)
        (some ⟨some "en", some ([] ++ [mkSeg "hello world" 1 2])⟩) 20 :=
  split_total_on_missing_fields.2.1 (fun _ _ => none) (some "en") 20 []
    [mkSeg "hello world" 1 2] (Segment.mk none (some 0) (some 1)) rfl

/-- Relation between two loop states run against different prompt collaborators: identical
except possibly in the prompts stored inside scenes. -/
def ShapeEq (s s2 : SplitState) : Prop :=
  s.scenes.map sceneShape = s2.scenes.map sceneShape ∧ s.curText = s2.curText ∧
  s.curWc = s2.curWc ∧ s.cst = s2.cst ∧ s.cet = s2.cet ∧ s.promptArgs = s2.promptArgs

theorem shapeEq_step (gen gen2 : String → String → Option String) (lang : String) (wpc : ℕ)
    (s s2 : SplitState) (seg : Segment) (h : ShapeEq s s2) :
    ShapeEq (step gen lang wpc s seg) (step gen2 lang wpc s2 seg) := by
  obtain ⟨hs, hct, hwc, hcst, hcet, hpa⟩ := h
  by_cases ht : pyStrip (seg.text.getD "") = ""
  · rw [step_skip gen lang wpc s seg ht, step_skip gen2 lang wpc s2 seg ht]
    exact ⟨hs, hct, hwc, hcst, hcet, hpa⟩
  · by_cases hb : s.curWc = 0 ∧ 3 * wpc ≤ 2 * segWc seg
    · have hb2 : s2.curWc = 0 ∧ 3 * wpc ≤ 2 * segWc seg := by rw [← hwc]; exact hb
      rw [step_oversized gen lang wpc s seg hb.1 ht hb.2,
        step_oversized gen2 lang wpc s2 seg hb2.1 ht hb2.2]
      refine ⟨?_, hct, hwc, hcst, hcet, ?_⟩
      · show (s.scenes ++ [Scene.mk (pyStrip (seg.text.getD "")) (seg.start.getD 0)
            (seg.stop.getD 0) (gen (pyStrip (seg.text.getD "")) lang)]).map sceneShape =
          (s2.scenes ++ [Scene.mk (pyStrip (seg.text.getD "")) (seg.start.getD 0)
            (seg.stop.getD 0) (gen2 (pyStrip (seg.text.getD "")) lang)]).map sceneShape
        rw [List.map_append, List.map_append, hs]
        rfl
      · show s.promptArgs ++ [pyStrip (seg.text.getD "")] =
          s2.promptArgs ++ [pyStrip (seg.text.getD "")]
        rw [hpa]
    · by_cases hf : 0 < s.curWc ∧ wpc + 5 < s.curWc + segWc seg
      · have hf2 : 0 < s2.curWc ∧ wpc + 5 < s2.curWc + segWc seg := by rw [← hwc]; exact hf
        rw [step_flush gen lang wpc s seg hf.1 ht hf.2,
          step_flush gen2 lang wpc s2 seg hf2.1 ht hf2.2]
        refine ⟨?_, rfl, rfl, rfl, rfl, ?_⟩
        · show (s.scenes ++ [Scene.mk (joinSpace s.curText) s.cst s.cet
              (gen (joinSpace s.curText) lang)]).map sceneShape =
            (s2.scenes ++ [Scene.mk (joinSpace s2.curText) s2.cst s2.cet
              (gen2 (joinSpace s2.curText) lang)]).map sceneShape
          rw [List.map_append, List.map_append, hs, hct, hcst, hcet]
          rfl
        · show s.promptArgs ++ [joinSpace s.curText] = s2.promptArgs ++ [joinSpace s2.curText]
          rw [hpa, hct]
      · have hb2 : ¬(s2.curWc = 0 ∧ 3 * wpc ≤ 2 * segWc seg) := by rw [← hwc]; exact hb
        have hf2 : ¬(0 < s2.curWc ∧ wpc + 5 < s2.curWc + segWc seg) := by rw [← hwc]; exact hf
        rw [step_merge gen lang wpc s seg ht hb hf, step_merge gen2 lang wpc s2 seg ht hb2 hf2]
        refine ⟨hs, ?_, ?_, ?_, rfl, hpa⟩
        · show s.curText ++ [pyStrip (seg.text.getD "")] =
            s2.curText ++ [pyStrip (seg.text.getD "")]
          rw [hct]
        · show s.curWc + segWc seg = s2.curWc + segWc seg
          rw [hwc]
        · show (if s.cst < 0 then seg.start.getD 0 else s.cst) =
            (if s2.cst < 0 then seg.start.getD 0 else s2.cst)
          rw [hcst]

theorem shapeEq_fold (gen gen2 : String → String → Option String) (lang : String) (wpc : ℕ) :
    ∀ (segs : List Segment) (s s2 : SplitState), ShapeEq s s2 →
      ShapeEq (segs.foldl (step gen lang wpc) s) (segs.foldl (step gen2 lang wpc) s2) := by
  intro segs
  induction segs with
  | nil => intro s s2 h; exact h
  | cons seg rest ih =>
    intro s s2 h
    rw [List.foldl_cons, List.foldl_cons]
    exact ih _ _ (shapeEq_step gen gen2 lang wpc s s2 seg h)

theorem shapeEq_finish (gen gen2 : String → String → Option String) (lang : String)
    (F F2 : SplitState) (h : ShapeEq F F2) :
    (finishScenes gen lang F).map sceneShape = (finishScenes gen2 lang F2).map sceneShape := by
  obtain ⟨hs, hct, hwc, hcst, hcet, hpa⟩ := h
  rw [finishScenes, finishScenes]
  by_cases hc : F.curText = []
  · rw [if_pos hc, if_pos (by rw [← hct]; exact hc)]
    exact hs
  · rw [if_neg hc, if_neg (by rw [← hct]; exact hc), List.map_append, List.map_append,
      hs, hct, hcst, hcet]
    rfl

theorem shapeEq_finishArgs (F F2 : SplitState) (h : ShapeEq F F2) :
    finishPromptArgs F = finishPromptArgs F2 := by
  obtain ⟨hs, hct, hwc, hcst, hcet, hpa⟩ := h
  rw [finishPromptArgs, finishPromptArgs]
  by_cases hc : F.curText = []
  · rw [if_pos hc, if_pos (by rw [← hct]; exact hc)]
    exact hpa
  · rw [if_neg hc, if_neg (by rw [← hct]; exact hc), hpa, hct]

/-- Calls invariant: the texts passed to prompt generation so far are exactly the chunk
texts of the scenes emitted so far, one call per scene. -/
def CallsOk (s : SplitState) : Prop := s.promptArgs = s.scenes.map Scene.chunk_text

theorem callsOk_step (gen : String → String → Option String) (lang : String) (wpc : ℕ)
    (s : SplitState) (seg : Segment) (h : CallsOk s) : CallsOk (step gen lang wpc s seg) := by
  by_cases ht : pyStrip (seg.text.getD "") = ""
  · rw [step_skip gen lang wpc s seg ht]
    exact h
  · by_cases hb : s.curWc = 0 ∧ 3 * wpc ≤ 2 * segWc seg
    · rw [step_oversized gen lang wpc s seg hb.1 ht hb.2]
      show s.promptArgs ++ [pyStrip (seg.text.getD "")] =
        (s.scenes ++ [Scene.mk (pyStrip (seg.text.getD "")) (seg.start.getD 0)
          (seg.stop.getD 0) (gen (pyStrip (seg.text.getD "")) lang)]).map Scene.chunk_text
      rw [List.map_append, h]
      rfl
    · by_cases hf : 0 < s.curWc ∧ wpc + 5 < s.curWc + segWc seg
      · rw [step_flush gen lang wpc s seg hf.1 ht hf.2]
        show s.promptArgs ++ [joinSpace s.curText] =
          (s.scenes ++ [Scene.mk (joinSpace s.curText) s.cst s.cet
            (gen (joinSpace s.curText) lang)]).map Scene.chunk_text
        rw [List.map_append, h]
        rfl
      · rw [step_merge gen lang wpc s seg ht hb hf]
        exact h

theorem callsOk_fold (gen : String → String → Option String) (lang : String) (wpc : ℕ) :
    ∀ (segs : List Segment) (s : SplitState), CallsOk s →
      CallsOk (segs.foldl (step gen lang wpc) s) := by
  intro segs
  induction segs with
  | nil => intro s h; exact h
  | cons seg rest ih =>
    intro s h
    rw [List.foldl_cons]
    exact ih _ (callsOk_step gen lang wpc s seg h)

theorem callsOk_finish (gen : String → String → Option String) (lang : String)
    (F : SplitState) (h : CallsOk F) :
    finishPromptArgs F = (finishScenes gen lang F).map Scene.chunk_text := by
  rw [finishPromptArgs, finishScenes]
  by_cases hc : F.curText = []
  · rw [if_pos hc, if_pos hc]
    exact h
  · rw [if_neg hc, if_neg hc, List.map_append, h]
    rfl

/-- C9: generate_image_prompt_with_openai returns none on a missing or empty API key and on
any collaborator failure instead of raising; on success it returns the collaborator text
with a leading case-insensitive prompt label stripped; and within
split_transcript_into_scenes the prompt collaborator cannot influence which scenes are
emitted, their texts or times, or the prompt calls made, so one scene receiving none leaves
every other scene emitted with its own call: one call per scene, in order. -/
theorem prompt_failure_isolated :
    (∀ (k : Option String) (c : Option String), k.getD "" = "" →
      generate_image_prompt_with_openai k c = none) ∧
    (∀ k : Option String, generate_image_prompt_with_openai k none = none) ∧
    (∀ (k : Option String) (txt : String), k.getD "" ≠ "" →
      generate_image_prompt_with_openai k (some txt) = some (cleanPromptText txt)) ∧
    cleanPromptText "Prompt: A cool image." = "A cool image." ∧
    (∀ (gen gen2 : String → String → Option String) (t : Option Transcript) (wpc : ℕ),
      (split_transcript_into_scenes gen t wpc).map sceneShape =
        (split_transcript_into_scenes gen2 t wpc).map sceneShape ∧
      splitPromptArgs gen t wpc = splitPromptArgs gen2 t wpc) ∧
    (∀ (gen : String → String → Option String) (t : Option Transcript) (wpc : ℕ),
      splitPromptArgs gen t wpc =
        (split_transcript_into_scenes gen t wpc).map Scene.chunk_text) := by
  refine ⟨?_, ?_, ?_, by decide, ?_, ?_⟩
  · intro k c h
    rw [generate_image_prompt_with_openai, if_pos h]
  · intro k
    by_cases h : k.getD "" = "" <;> simp [generate_image_prompt_with_openai, h]
  · intro k txt h
    rw [generate_image_prompt_with_openai, if_neg h]
    rfl
  · intro gen gen2 t wpc
    rcases t with - | ⟨tl, ts⟩
    · exact ⟨rfl, rfl⟩
    · rcases ts with - | L
      · exact ⟨rfl, rfl⟩
      · cases L with
        | nil => exact ⟨rfl, rfl⟩
        | cons a l =>
          have hrel := shapeEq_fold gen gen2 (tl.getD "en") wpc (a :: l) initState initState
            ⟨rfl, rfl, rfl, rfl, rfl, rfl⟩
          constructor
          · rw [split_eq_finish gen tl wpc (a :: l), split_eq_finish gen2 tl wpc (a :: l)]
            exact shapeEq_finish gen gen2 (tl.getD "en") _ _ hrel
          · rw [splitPromptArgs_eq_finish gen tl wpc (a :: l),
              splitPromptArgs_eq_finish gen2 tl wpc (a :: l)]
            exact shapeEq_finishArgs _ _ hrel
  · intro gen t wpc
    rcases t with - | ⟨tl, ts⟩
    · rfl
    · rcases ts with - | L
      · rfl
      · cases L with
        | nil => rfl
        | cons a l =>
          rw [splitPromptArgs_eq_finish gen tl wpc (a :: l), split_eq_finish gen tl wpc (a :: l)]
          exact callsOk_finish gen (tl.getD "en") _
            (callsOk_fold gen (tl.getD "en") wpc (a :: l) initState rfl)

/-- C9 witness: the theorem applied at concrete inputs: a set key with the labelled
collaborator text, and the three-segment transcript under two collaborators, one failing. -/
theorem prompt_failure_isolated_witness :
    generate_image_prompt_with_openai (some "key") (some "Prompt: A cool image.") =
      some (cleanPromptText "Prompt: A cool image.") ∧
    generate_image_prompt_with_openai (some "key") none = none ∧
    (split_transcript_into_scenes (fun _ _ => none) (some ⟨some "en",
        some [mkSeg "a b c d e f g h i j" 0 5, mkSeg "k l m n o p q" 6 10,
              mkSeg "r s t u v" 11 15]⟩) 10).map sceneShape =
      (split_transcript_into_scenes (fun t _ => some t) (some ⟨some "en",
        some [mkSeg "a b c d e f g h i j" 0 5, mkSeg "k l m n o p q" 6 10,
              mkSeg "r s t u v" 11 15]⟩) 10).map sceneShape :=
  ⟨prompt_failure_isolated.2.2.1 (some "key") "Prompt: A cool image." (by decide),
   prompt_failure_isolated.2.1 (some "key"),
   (prompt_failure_isolated.2.2.2.2.1 (fun _ _ => none) (fun t _ => some t)
     (some ⟨some "en", some [mkSeg "a b c d e f g h i j" 0 5, mkSeg "k l m n o p q" 6 10,
       mkSeg "r s t u v" 11 15]⟩) 10).1⟩
